import Mathlib

/-!
Verification of the virtual-filesystem core of `simple_file_transfer_v2`.

The development shallowly embeds the Rust sources:
* `src/fs/mapped_fs.rs` — the mapped namespace (`parse_path`, `add`, `remove`,
  `unmap`, `list`);
* `src/fs/browser.rs` — the cursor browser (`create_cursor`, `destroy_cursor`,
  `read_cursor`, `move_cursor`, `get_location_cursor`);
* the framing performed by `src/bin/server.rs` (2-byte length prefix).

`OsString` values (names, raw path components) are modelled as lists of bytes.
A filesystem path is a list of components, mirroring the `std::path::Component`
iterator. Fallible operations return `Option`/`Except`; a `none` result of
`MappedFS.add` models the `unwrap` panic in the source. The host filesystem
metadata fetch and directory enumeration are black-box collaborators and enter
as oracle parameters.
-/

namespace SFT

/-- A raw byte string, modelling `OsString` contents. -/
abbrev ByteStr := List Nat

/-- One `std::path::Component`. -/
inductive PathComponent where
  | prefixC (s : ByteStr)
  | rootDir
  | curDir
  | parentDir
  | normal (name : ByteStr)
deriving DecidableEq, Repr

/-- A path, real or virtual, as its component list. -/
abbrev FsPath := List PathComponent

/-- `Path::is_absolute` on Unix-like systems: the path has a root. -/
def isAbsolute : FsPath → Bool
  | .rootDir :: _ => true
  | .prefixC _ :: .rootDir :: _ => true
  | _ => false

/-- `Path::has_root` restricted to what can follow a join argument. -/
def hasRoot : FsPath → Bool
  | .rootDir :: _ => true
  | .prefixC _ :: _ => true
  | _ => false

/-- `PathBuf::join`: an absolute argument replaces the base path. -/
def pathJoin (base ext : FsPath) : FsPath :=
  if hasRoot ext then ext else base ++ ext

/-- `Path::file_name`: the final component when it is a normal one. -/
def fileName (p : FsPath) : Option ByteStr :=
  match p.getLast? with
  | some (.normal n) => some n
  | _ => none

/-- Component lists that `Path::components` can actually yield: an optional
prefix, then an optional root, then only normal and parent-dir components
(with a single leading `.` allowed on relative paths). -/
def tailOK : FsPath → Bool
  | [] => true
  | .normal _ :: rest => tailOK rest
  | .parentDir :: rest => tailOK rest
  | _ => false

/-- Well-formedness of a whole component list as produced by
`Path::components`. -/
def normalizedPath : FsPath → Bool
  | .prefixC _ :: .rootDir :: rest => tailOK rest
  | .prefixC _ :: rest => tailOK rest
  | .rootDir :: rest => tailOK rest
  | .curDir :: rest => tailOK rest
  | rest => tailOK rest

/-- Spec-side: does a list of components (all in non-first position) contain a
component that `parse_path` rejects, namely `..`, a non-leading `.`, or a
non-leading prefix? -/
def illegalTail : FsPath → Bool
  | [] => false
  | .parentDir :: _ => true
  | .curDir :: _ => true
  | .prefixC _ :: _ => true
  | _ :: rest => illegalTail rest

/-- Spec-side: the path has an illegal component — a `..` anywhere, or a `.`
or prefix component after the first position. -/
def hasIllegalComponent : FsPath → Bool
  | [] => false
  | c :: rest =>
    (match c with
     | .parentDir => true
     | _ => false) || illegalTail rest

/-- Spec-side: the first normal component of a virtual path together with the
components that follow it. `none` means the path denotes the bare root. -/
def firstNormalSplit : FsPath → Option (ByteStr × FsPath)
  | [] => none
  | .normal n :: rest => some (n, rest)
  | _ :: rest => firstNormalSplit rest

/-- All components are normal ones. -/
def allNormal : FsPath → Bool
  | [] => true
  | .normal _ :: rest => allNormal rest
  | _ => false

/-- Association-list lookup, modelling `HashMap::get`. -/
def assocGet {κ β : Type} [DecidableEq κ] (k : κ) : List (κ × β) → Option β
  | [] => none
  | (k', v) :: rest => if k' = k then some v else assocGet k rest

/-- `FSElement` from `fs.rs`: one file or directory, as produced by the
metadata-fetch collaborator. Timestamps are opaque integers. -/
structure FSElement where
  name : ByteStr
  created : Option Int
  modified : Option Int
  size : Nat
  is_file : Bool
deriving DecidableEq, Repr

namespace MappedFS

/-- Error kinds of the mapped filesystem (`MappedFSError`). -/
inductive MappedFSError where
  | pathNotFound (path : FsPath)
  | pathNotAbsolute (path : FsPath)
deriving DecidableEq, Repr

/-- Result of `parse_path`. -/
inductive ParsedPath where
  | root
  | extended (root_element : ByteStr) (extension : FsPath)
deriving DecidableEq, Repr

/-- The component loop of `parse_path`: walks the components, tracking whether
the current component is the first one and the parse state so far. `none`
models the `PathNotFound` rejection of illegal components. -/
def parsePathLoop : FsPath → Bool → ParsedPath → Option ParsedPath
  | [], _, acc => some acc
  | c :: rest, first, acc =>
    match c, first, acc with
    | .prefixC _, true, a => parsePathLoop rest false a
    | .curDir, true, a => parsePathLoop rest false a
    | .rootDir, _, a => parsePathLoop rest false a
    | .normal n, _, .root => parsePathLoop rest false (.extended n rest)
    | .normal _, _, a => parsePathLoop rest false a
    | _, _, _ => none

/-- `parse_path` from `mapped_fs.rs`. -/
def parse_path (p : FsPath) : Option ParsedPath :=
  parsePathLoop p true .root

/-- The name table: display name to real path. Iteration order of the Rust
`HashMap` is arbitrary; the model fixes insertion order. -/
abbrev FSMap := List (ByteStr × FsPath)

/-- The candidate display name tried at loop counter `number` in `add`:
the bare file name at `0`, then `name ( number)` with the decimal digits of
`number`, mirroring the `format!` call. -/
def candName (nm : ByteStr) (dig : Nat → ByteStr) : Nat → ByteStr
  | 0 => nm
  | n + 1 => nm ++ [32, 40] ++ dig (n + 1) ++ [41]

/-- Most-significant-first decimal digits, fuelled structural recursion. -/
def digitsGo : Nat → Nat → List Nat
  | 0, _ => []
  | fuel + 1, n => if n = 0 then [] else digitsGo fuel (n / 10) ++ [n % 10]

/-- ASCII decimal digits of `n` (empty for `0`; `add` only formats `n ≥ 1`). -/
def decDigits (n : Nat) : ByteStr := (digitsGo n n).map (fun d => d + 48)

/-- The candidate name used by the source: `" (N)"` with decimal `N`. -/
def cand (nm : ByteStr) : Nat → ByteStr := candName nm decDigits

/-- The insertion loop of `add`: try candidate names in order; stop on a slot
holding the identical path (no-op) or on a vacant slot (insert). The fuel
argument makes the recursion structural; `add` passes enough fuel for the
loop to always finish (see `addLoop_isSome`). -/
def addLoop (m : FSMap) (nm : ByteStr) (p : FsPath) : Nat → Nat → Option FSMap
  | _, 0 => none
  | number, fuel + 1 =>
    match assocGet (cand nm number) m with
    | some q => if q = p then some m else addLoop m nm p (number + 1) fuel
    | none => some (m ++ [(cand nm number, p)])

/-- `MappedFS::add`. The outer `none` models a panic: the `unwrap` on
`file_name` (the loop itself cannot exhaust its fuel, `addLoop_isSome`). -/
def add (m : FSMap) (p : FsPath) : Option (Except MappedFSError FSMap) :=
  if isAbsolute p = false then some (.error (.pathNotAbsolute p))
  else
    match fileName p with
    | none => none
    | some nm => (addLoop m nm p 0 (m.length + 1)).map .ok

/-- `MappedFS::remove`: retain entries whose path differs from the argument. -/
def remove (m : FSMap) (p : FsPath) : FSMap :=
  m.filter (fun e => decide (e.2 ≠ p))

/-- `MappedFS::unmap`. -/
def unmap (m : FSMap) (p : FsPath) : Except MappedFSError FsPath :=
  match parse_path p with
  | none => .error (.pathNotFound p)
  | some .root => .error (.pathNotFound p)
  | some (.extended r ext) =>
    match assocGet r m with
    | none => .error (.pathNotFound p)
    | some ap => .ok (pathJoin ap ext)

/-- `MappedFS::list`. The host filesystem enters through two oracles:
`fetch name path` is `get_element` (metadata fetch, fallible per entry) and
`readDir path` is `tokio::fs::read_dir` plus the `next_entry` loop (its
failure collapses the whole enumeration, as in the source). Entries whose
fetch fails are dropped from the join, never failing the call. -/
def list (fetch : ByteStr → FsPath → Option FSElement)
    (readDir : FsPath → Option (List (ByteStr × FsPath)))
    (m : FSMap) (p : FsPath) : Except MappedFSError (List FSElement) :=
  match parse_path p with
  | none => .error (.pathNotFound p)
  | some .root => .ok (m.filterMap (fun e => fetch e.1 e.2))
  | some (.extended r ext) =>
    match assocGet r m with
    | none => .error (.pathNotFound p)
    | some ap =>
      match readDir (pathJoin ap ext) with
      | none => .error (.pathNotFound p)
      | some entries => .ok (entries.filterMap (fun e => fetch e.1 e.2))

end MappedFS

/-- `CursorError` from `browser.rs`. -/
inductive CursorError where
  | cursorLimitReached (limit : Nat)
  | unknownCursor
  | readError (path : FsPath)
deriving DecidableEq, Repr

/-- One cursor: its current virtual path and the optional cached listing. -/
structure Cursor where
  path : FsPath
  state : Option (List FSElement)
deriving DecidableEq, Repr

/-- Byte-wise comparison of two byte strings, modelling the `Ord` instance of
`OsString` (lexicographic on the raw bytes). -/
def cmpBytes : ByteStr → ByteStr → Ordering
  | [], [] => .eq
  | [], _ :: _ => .lt
  | _ :: _, [] => .gt
  | a :: as, b :: bs => if a < b then .lt else if b < a then .gt else cmpBytes as bs

/-- `cmp_fs_elements` from `browser.rs`: compare elements by name. -/
def cmp_fs_elements (e1 e2 : FSElement) : Ordering :=
  cmpBytes e1.name e2.name

/-- The non-strict order induced by `cmp_fs_elements`, used to state what the
`sort_unstable_by` call guarantees. -/
def fsLe (e1 e2 : FSElement) : Prop := cmp_fs_elements e1 e2 ≠ .gt

instance fsLe_decidable : DecidableRel fsLe := fun e1 e2 => by
  unfold fsLe; infer_instance

/-- The sort performed by `read_cursor`. `sort_unstable_by` guarantees a
permutation of the input that is sorted under the comparator; the model picks
insertion sort as one such realisation. -/
def sortElements (l : List FSElement) : List FSElement :=
  List.insertionSort fsLe l

/-- The browser: live cursors keyed by 16-bit ID, the cursor cap, the pending
samples of the ID generator (`SmallRng`), and the filesystem it browses. The
`fs` field is any `List` capability, as the `FS` trait bound allows. -/
structure Browser where
  cursors : List (Nat × Cursor)
  cursor_limit : Nat
  rng : List Nat
  fs : FsPath → Except Unit (List FSElement)

namespace Browser

/-- The sampling loop of `create_cursor`: draw 16-bit samples until one is not
a live ID. `none` means the modelled sample stream ran out (the source loops
on). -/
def pickFresh (live : List Nat) : List Nat → Option (Nat × List Nat)
  | [] => none
  | s :: rest =>
    let id := s % 65536
    if id ∈ live then pickFresh live rest else some (id, rest)

/-- `Browser::create_cursor`. Outer `none` only when the modelled sample
stream is exhausted. -/
def create_cursor (b : Browser) : Option (Except CursorError Nat × Browser) :=
  if b.cursor_limit ≤ b.cursors.length then
    some (.error (.cursorLimitReached b.cursor_limit), b)
  else
    match pickFresh (b.cursors.map Prod.fst) b.rng with
    | none => none
    | some (id, rest) =>
      some (.ok id, { b with cursors := b.cursors ++ [(id, ⟨[], none⟩)], rng := rest })

/-- `Browser::destroy_cursor`. -/
def destroy_cursor (b : Browser) (id : Nat) : Except CursorError Unit × Browser :=
  match assocGet id b.cursors with
  | none => (.error .unknownCursor, b)
  | some _ => (.ok (), { b with cursors := b.cursors.filter (fun e => decide (e.1 ≠ id)) })

/-- Replace the cursor stored under `id`. -/
def updateCursor (cs : List (Nat × Cursor)) (id : Nat) (c : Cursor) : List (Nat × Cursor) :=
  cs.map (fun e => if e.1 = id then (id, c) else e)

/-- `Browser::read_cursor`: list at the current path, sort, cache, return. -/
def read_cursor (b : Browser) (id : Nat) : Except CursorError (List FSElement) × Browser :=
  match assocGet id b.cursors with
  | none => (.error .unknownCursor, b)
  | some c =>
    match b.fs c.path with
    | .error _ => (.error (.readError c.path), b)
    | .ok elements =>
      let sorted := sortElements elements
      (.ok sorted, { b with cursors := updateCursor b.cursors id ⟨c.path, some sorted⟩ })

/-- `Browser::move_cursor`: update path and clear cache only when the new path
differs. -/
def move_cursor (b : Browser) (id : Nat) (p : FsPath) : Except CursorError Unit × Browser :=
  match assocGet id b.cursors with
  | none => (.error .unknownCursor, b)
  | some c =>
    if c.path = p then (.ok (), b)
    else (.ok (), { b with cursors := updateCursor b.cursors id ⟨p, none⟩ })

/-- `Browser::get_location_cursor`. -/
def get_location_cursor (b : Browser) (id : Nat) : Except CursorError FsPath :=
  match assocGet id b.cursors with
  | none => .error .unknownCursor
  | some c => .ok c.path

end Browser

namespace Wire

/-- `Response` from `browser.rs`, as carried on the wire. -/
inductive Response where
  | create (r : Except CursorError Nat)
  | destroy (r : Except CursorError Unit)
  | read (r : Except CursorError (List FSElement))
  | getLocation (r : Except CursorError FsPath)
  | move (r : Except CursorError Unit)

/-- The 2-byte length prefix written by `write_u16`; `none` models the panic
of `response.len().try_into::<u16>().unwrap()` in `handle_socket`. -/
def frameLen (n : Nat) : Option (List (Fin 256)) :=
  if h : n < 65536 then
    some [⟨n / 256, by omega⟩, ⟨n % 256, by omega⟩]
  else none

/-- Framing one serialized message on the server: length prefix then payload. -/
def frameMessage (payload : List (Fin 256)) : Option (List (Fin 256)) :=
  (frameLen payload.length).map (fun pre => pre ++ payload)

end Wire

/-- The strict companion of `fsLe`: strictly smaller name. -/
def fsLt (e1 e2 : FSElement) : Prop := cmp_fs_elements e1 e2 = .lt

/-! Concrete data used by example evaluations and witnesses. -/

/-- The byte string `foo.txt`. -/
def fooTxt : ByteStr := [102, 111, 111, 46, 116, 120, 116]

/-- The real path `/a/b/foo.txt`. -/
def pABFoo : FsPath := [.rootDir, .normal [97], .normal [98], .normal fooTxt]

/-- The real path `/c/d/foo.txt`. -/
def pCDFoo : FsPath := [.rootDir, .normal [99], .normal [100], .normal fooTxt]

/-- The byte string `foo`. -/
def fooB : ByteStr := [102, 111, 111]

/-- The real path `/a/foo`. -/
def pAFoo : FsPath := [.rootDir, .normal [97], .normal fooB]

/-- The real path `/b/foo`. -/
def pBFoo : FsPath := [.rootDir, .normal [98], .normal fooB]

/-- A one-entry name table mapping display name `a` to real path `/a`. -/
def mW : MappedFS.FSMap := [([97], [.rootDir, .normal [97]])]

/-- The virtual path `/a/b`. -/
def csW : FsPath := [.rootDir, .normal [97], .normal [98]]

/-- A sample element named `a`. -/
def elemA : FSElement := ⟨[97], none, none, 0, true⟩

/-- A sample element named `b`. -/
def elemB : FSElement := ⟨[98], none, none, 1, true⟩

/-- A metadata-fetch oracle that succeeds only for the name `a`. -/
def fetchW : ByteStr → FsPath → Option FSElement :=
  fun n _ => if n = [97] then some elemA else none

/-- A directory-enumeration oracle listing entries `a` and `b` everywhere. -/
def readDirW : FsPath → Option (List (ByteStr × FsPath)) :=
  fun _ => some [([97], []), ([98], [])]

/-- A two-entry name table with display names `a` and `b`. -/
def mW9 : MappedFS.FSMap := [([97], []), ([98], [])]

/-- A browser with one live cursor at the root whose filesystem lists `b`
then `a`. -/
def bW4 : Browser := ⟨[(7, ⟨[], none⟩)], 16, [], fun _ => .ok [elemB, elemA]⟩

/-- A browser with one live cursor holding a cached listing. -/
def bW5 : Browser := ⟨[(3, ⟨[], some [elemA]⟩)], 16, [], fun _ => .ok []⟩

/-- A browser at capacity: limit one, one live cursor, two pending samples. -/
def bW6 : Browser := ⟨[(1, ⟨[], none⟩)], 1, [1, 2], fun _ => .ok []⟩

/-- A browser whose filesystem always fails to list. -/
def bW10 : Browser := ⟨[(2, ⟨[], none⟩)], 16, [], fun _ => .error ()⟩

/-- A simple response encoding that spends one byte per listing element; used
to instantiate the framing theorem. -/
def encW : Wire.Response → List (Fin 256) :=
  fun r =>
    match r with
    | .read (.ok L) => L.map (fun _ => (0 : Fin 256))
    | _ => []

/-! ### Characterisation of `parse_path` -/

namespace MappedFS

theorem parsePathLoop_none_iff (cs : FsPath) :
    ∀ acc, (parsePathLoop cs false acc = none ↔ illegalTail cs = true) := by
  induction cs with
  | nil => intro acc; simp [parsePathLoop, illegalTail]
  | cons c rest ih =>
    intro acc
    cases c with
    | prefixC s => simp [parsePathLoop, illegalTail]
    | rootDir => simpa [parsePathLoop, illegalTail] using ih acc
    | curDir => simp [parsePathLoop, illegalTail]
    | parentDir => simp [parsePathLoop, illegalTail]
    | normal n =>
      cases acc with
      | root => simpa [parsePathLoop, illegalTail] using ih (.extended n rest)
      | extended r e => simpa [parsePathLoop, illegalTail] using ih (.extended r e)

theorem parsePathLoop_extended (cs : FsPath) (r : ByteStr) (e : FsPath)
    (h : illegalTail cs = false) :
    parsePathLoop cs false (.extended r e) = some (.extended r e) := by
  induction cs with
  | nil => rfl
  | cons c rest ih =>
    cases c <;> simp [illegalTail] at h ⊢ <;>
      simp [parsePathLoop, ih h]

theorem parsePathLoop_root (cs : FsPath) (h : illegalTail cs = false) :
    parsePathLoop cs false .root =
      some (match firstNormalSplit cs with
            | none => ParsedPath.root
            | some (n, rest) => ParsedPath.extended n rest) := by
  induction cs with
  | nil => rfl
  | cons c rest ih =>
    cases c with
    | prefixC s => simp [illegalTail] at h
    | curDir => simp [illegalTail] at h
    | parentDir => simp [illegalTail] at h
    | rootDir =>
      simp [illegalTail] at h
      simpa [parsePathLoop, firstNormalSplit] using ih h
    | normal n =>
      simp [illegalTail] at h
      simp [parsePathLoop, firstNormalSplit, parsePathLoop_extended rest n rest h]

theorem parse_path_none_iff (cs : FsPath) :
    parse_path cs = none ↔ hasIllegalComponent cs = true := by
  cases cs with
  | nil => simp [parse_path, parsePathLoop, hasIllegalComponent]
  | cons c rest =>
    cases c <;>
      simpa [parse_path, parsePathLoop, hasIllegalComponent] using
        parsePathLoop_none_iff rest _

theorem parse_path_of_legal (cs : FsPath) (h : hasIllegalComponent cs = false) :
    parse_path cs =
      some (match firstNormalSplit cs with
            | none => ParsedPath.root
            | some (n, rest) => ParsedPath.extended n rest) := by
  cases cs with
  | nil => rfl
  | cons c rest =>
    cases c with
    | prefixC s =>
      simp [hasIllegalComponent] at h
      simpa [parse_path, parsePathLoop, firstNormalSplit] using parsePathLoop_root rest h
    | curDir =>
      simp [hasIllegalComponent] at h
      simpa [parse_path, parsePathLoop, firstNormalSplit] using parsePathLoop_root rest h
    | rootDir =>
      simp [hasIllegalComponent] at h
      simpa [parse_path, parsePathLoop, firstNormalSplit] using parsePathLoop_root rest h
    | parentDir => simp [hasIllegalComponent] at h
    | normal n =>
      simp [hasIllegalComponent] at h
      simp [parse_path, parsePathLoop, firstNormalSplit,
        parsePathLoop_extended rest n rest h]

end MappedFS

theorem allNormal_of_tailOK (cs : FsPath) (ht : tailOK cs = true)
    (hi : illegalTail cs = false) : allNormal cs = true := by
  induction cs with
  | nil => rfl
  | cons c rest ih =>
    cases c <;> simp [tailOK, illegalTail, allNormal] at * <;> exact ih ht hi

theorem firstNormalSplit_allNormal (cs : FsPath) (r : ByteStr) (e : FsPath)
    (ha : allNormal cs = true) (hs : firstNormalSplit cs = some (r, e)) :
    allNormal e = true := by
  cases cs with
  | nil => simp [firstNormalSplit] at hs
  | cons c rest =>
    cases c <;> simp [allNormal, firstNormalSplit] at *
    obtain ⟨-, h2⟩ := hs
    subst h2
    exact ha

theorem tailOK_split_allNormal (cs : FsPath) (r : ByteStr) (e : FsPath)
    (ht : tailOK cs = true) (hi : illegalTail cs = false)
    (hs : firstNormalSplit cs = some (r, e)) : allNormal e = true :=
  firstNormalSplit_allNormal cs r e (allNormal_of_tailOK cs ht hi) hs

theorem ext_allNormal (cs : FsPath) (r : ByteStr) (e : FsPath)
    (hn : normalizedPath cs = true) (hi : hasIllegalComponent cs = false)
    (hs : firstNormalSplit cs = some (r, e)) : allNormal e = true := by
  cases cs with
  | nil => simp [firstNormalSplit] at hs
  | cons c rest =>
    cases c with
    | parentDir => simp [hasIllegalComponent] at hi
    | rootDir =>
      simp [hasIllegalComponent] at hi
      simp [normalizedPath] at hn
      exact tailOK_split_allNormal rest r e hn hi (by simpa [firstNormalSplit] using hs)
    | curDir =>
      simp [hasIllegalComponent] at hi
      simp [normalizedPath] at hn
      exact tailOK_split_allNormal rest r e hn hi (by simpa [firstNormalSplit] using hs)
    | normal n =>
      simp [hasIllegalComponent] at hi
      simp [normalizedPath, tailOK] at hn
      simp [firstNormalSplit] at hs
      obtain ⟨-, h2⟩ := hs
      subst h2
      exact allNormal_of_tailOK rest hn hi
    | prefixC s =>
      simp [hasIllegalComponent] at hi
      cases rest with
      | nil => simp [firstNormalSplit] at hs
      | cons c2 rest2 =>
        cases c2 with
        | rootDir =>
          simp [normalizedPath] at hn
          simp [illegalTail] at hi
          exact tailOK_split_allNormal rest2 r e hn hi
            (by simpa [firstNormalSplit] using hs)
        | parentDir => simp [illegalTail] at hi
        | curDir => simp [illegalTail] at hi
        | prefixC s2 => simp [illegalTail] at hi
        | normal n2 =>
          simp [normalizedPath, tailOK] at hn
          simp [illegalTail] at hi
          simp [firstNormalSplit] at hs
          obtain ⟨-, h2⟩ := hs
          subst h2
          exact allNormal_of_tailOK rest2 hn hi

theorem hasRoot_of_allNormal (cs : FsPath) (h : allNormal cs = true) :
    hasRoot cs = false := by
  cases cs with
  | nil => rfl
  | cons c rest => cases c <;> simp [allNormal, hasRoot] at *

/-- C1: `unmap` fails with `PathNotFound` exactly when the virtual path has an
illegal component (regardless of the name table), when it has no normal
component (the bare root), or when its first normal component is not a mapped
display name; in every other case it succeeds and returns the selected real
path extended by the remaining components. -/
theorem c1_unmap_characterization (m : MappedFS.FSMap) (cs : FsPath)
    (hn : normalizedPath cs = true) :
    (hasIllegalComponent cs = true →
      MappedFS.unmap m cs = .error (.pathNotFound cs)) ∧
    (hasIllegalComponent cs = false → firstNormalSplit cs = none →
      MappedFS.unmap m cs = .error (.pathNotFound cs)) ∧
    (∀ r ext, hasIllegalComponent cs = false →
      firstNormalSplit cs = some (r, ext) → assocGet r m = none →
      MappedFS.unmap m cs = .error (.pathNotFound cs)) ∧
    (∀ r ext ap, hasIllegalComponent cs = false →
      firstNormalSplit cs = some (r, ext) → assocGet r m = some ap →
      MappedFS.unmap m cs = .ok (ap ++ ext)) := by
  refine ⟨?_, ?_, ?_, ?_⟩
  · intro hi
    have hp : MappedFS.parse_path cs = none := (MappedFS.parse_path_none_iff cs).2 hi
    simp [MappedFS.unmap, hp]
  · intro hi hsplit
    have hp := MappedFS.parse_path_of_legal cs hi
    rw [hsplit] at hp
    simp [MappedFS.unmap, hp]
  · intro r ext hi hsplit hget
    have hp := MappedFS.parse_path_of_legal cs hi
    rw [hsplit] at hp
    simp [MappedFS.unmap, hp, hget]
  · intro r ext ap hi hsplit hget
    have hp := MappedFS.parse_path_of_legal cs hi
    rw [hsplit] at hp
    have hext := ext_allNormal cs r ext hn hi hsplit
    simp [MappedFS.unmap, hp, hget, pathJoin, hasRoot_of_allNormal ext hext]

/-- C1 witness: a concrete successful resolution through the table `mW`. -/
theorem c1_unmap_characterization_witness :
    normalizedPath csW = true ∧
    (hasIllegalComponent csW = false ∧
      firstNormalSplit csW = some ([97], [.normal [98]]) ∧
      assocGet ([97] : ByteStr) mW = some [.rootDir, .normal [97]] ∧
      MappedFS.unmap mW csW = .ok [.rootDir, .normal [97], .normal [98]]) :=
  ⟨by decide,
    by
      refine ⟨by decide, by decide, by decide, ?_⟩
      exact (c1_unmap_characterization mW csW (by decide)).2.2.2
        [97] [.normal [98]] [.rootDir, .normal [97]] (by decide) (by decide) (by decide)⟩

/-- C9: `list` never fails because an individual metadata fetch fails. At the
root it returns exactly the entries whose fetch succeeded; on an extended path
whose resolved directory enumerates, it returns exactly the directory entries
whose fetch succeeded. The fetch oracle is arbitrary, so any subset of the
per-entry fetches may fail without failing the call. -/
theorem c9_list_partial_success (fetch : ByteStr → FsPath → Option FSElement)
    (readDir : FsPath → Option (List (ByteStr × FsPath)))
    (m : MappedFS.FSMap) (p : FsPath) :
    (MappedFS.parse_path p = some .root →
      MappedFS.list fetch readDir m p = .ok (m.filterMap (fun e => fetch e.1 e.2))) ∧
    (∀ r ext ap entries, MappedFS.parse_path p = some (.extended r ext) →
      assocGet r m = some ap → readDir (pathJoin ap ext) = some entries →
      MappedFS.list fetch readDir m p =
        .ok (entries.filterMap (fun e => fetch e.1 e.2))) := by
  constructor
  · intro hp
    simp [MappedFS.list, hp]
  · intro r ext ap entries hp hget hrd
    simp [MappedFS.list, hp, hget, hrd]

/-- C9 witness: at the root of `mW9` the fetch for entry `b` fails and the
listing still succeeds, containing exactly the entry `a`. -/
theorem c9_list_partial_success_witness :
    MappedFS.parse_path [] = some .root ∧
    MappedFS.list fetchW readDirW mW9 [] =
      .ok (mW9.filterMap (fun e => fetchW e.1 e.2)) ∧
    mW9.filterMap (fun e => fetchW e.1 e.2) = [elemA] :=
  ⟨rfl, (c9_list_partial_success fetchW readDirW mW9 []).1 rfl, by decide⟩

/-! ### The `add` loop: termination and characterisation -/

theorem digitsGo_val : ∀ (fuel n : Nat), n ≤ fuel →
    (MappedFS.digitsGo fuel n).foldl (fun a d => a * 10 + d) 0 = n := by
  intro fuel
  induction fuel with
  | zero => intro n h; interval_cases n; rfl
  | succ f ih =>
    intro n h
    by_cases h0 : n = 0
    · subst h0; simp [MappedFS.digitsGo]
    · have hdiv : n / 10 ≤ f := by
        have := Nat.div_lt_self (Nat.pos_of_ne_zero h0) (by norm_num : 1 < 10)
        omega
      simp [MappedFS.digitsGo, h0, List.foldl_append, ih (n / 10) hdiv]
      omega

theorem decDigits_inj : Function.Injective MappedFS.decDigits := by
  intro a b h
  have hmap : Function.Injective (fun d : Nat => d + 48) :=
    fun x y hxy => Nat.add_right_cancel hxy
  have h2 : MappedFS.digitsGo a a = MappedFS.digitsGo b b :=
    List.map_injective_iff.2 hmap h
  have ha := digitsGo_val a a le_rfl
  have hb := digitsGo_val b b le_rfl
  rw [h2, hb] at ha
  omega

theorem cand_inj (nm : ByteStr) : Function.Injective (MappedFS.cand nm) := by
  intro a b h
  match a, b with
  | 0, 0 => rfl
  | 0, k + 1 =>
    exfalso
    have hlen := congrArg List.length h
    simp only [MappedFS.cand, MappedFS.candName, List.length_append,
      List.length_cons, List.length_nil] at hlen
    omega
  | k + 1, 0 =>
    exfalso
    have hlen := congrArg List.length h
    simp only [MappedFS.cand, MappedFS.candName, List.length_append,
      List.length_cons, List.length_nil] at hlen
    omega
  | k + 1, j + 1 =>
    simp only [MappedFS.cand, MappedFS.candName] at h
    have h1 := List.append_cancel_right h
    have h2 := List.append_cancel_left h1
    exact decDigits_inj h2

theorem assocGet_some_mem_keys {κ β : Type} [DecidableEq κ] (k : κ)
    (l : List (κ × β)) (v : β) (h : assocGet k l = some v) :
    k ∈ l.map Prod.fst := by
  induction l with
  | nil => simp [assocGet] at h
  | cons e rest ih =>
    obtain ⟨k2, v2⟩ := e
    by_cases hk : k2 = k
    · subst hk; simp
    · rw [assocGet, if_neg hk] at h
      simp [ih h]

theorem assocGet_eq_none_iff {κ β : Type} [DecidableEq κ] (k : κ)
    (l : List (κ × β)) : assocGet k l = none ↔ k ∉ l.map Prod.fst := by
  induction l with
  | nil => simp [assocGet]
  | cons e rest ih =>
    obtain ⟨k2, v2⟩ := e
    by_cases hk : k2 = k
    · subst hk; simp [assocGet]
    · rw [assocGet, if_neg hk, ih]
      simp only [List.map_cons, List.mem_cons]
      constructor
      · intro h hmem
        cases hmem with
        | inl h2 => exact hk h2.symm
        | inr h2 => exact h h2
      · intro h h2
        exact h (Or.inr h2)

theorem exists_vacant_cand (m : MappedFS.FSMap) (nm : ByteStr) :
    ∃ N, N ≤ m.length ∧ assocGet (MappedFS.cand nm N) m = none := by
  by_contra hc
  push_neg at hc
  have hmem : ∀ N, N ≤ m.length → MappedFS.cand nm N ∈ m.map Prod.fst := by
    intro N hN
    rcases Option.ne_none_iff_exists.1 (hc N hN) with ⟨v, hv⟩
    exact assocGet_some_mem_keys _ _ _ hv.symm
  have hnodup : ((List.range (m.length + 1)).map (MappedFS.cand nm)).Nodup :=
    (List.nodup_range _).map (cand_inj nm)
  have hsub : ((List.range (m.length + 1)).map (MappedFS.cand nm)) ⊆ m.map Prod.fst := by
    intro x hx
    rcases List.mem_map.1 hx with ⟨N, hN, rfl⟩
    exact hmem N (Nat.lt_succ_iff.1 (List.mem_range.1 hN))
  have hlen := (List.subperm_of_subset hnodup hsub).length_le
  simp only [List.length_map, List.length_range] at hlen
  omega

theorem addLoop_isSome (m : MappedFS.FSMap) (nm : ByteStr) (p : FsPath) :
    ∀ (fuel number : Nat),
      (∃ N, number ≤ N ∧ N < number + fuel ∧ assocGet (MappedFS.cand nm N) m = none) →
      (MappedFS.addLoop m nm p number fuel).isSome = true := by
  intro fuel
  induction fuel with
  | zero =>
    intro number h
    obtain ⟨N, h1, h2, -⟩ := h
    omega
  | succ f ih =>
    intro number h
    obtain ⟨N, h1, h2, h3⟩ := h
    cases hg : assocGet (MappedFS.cand nm number) m with
    | none =>
      have hred : MappedFS.addLoop m nm p number (f + 1)
          = some (m ++ [(MappedFS.cand nm number, p)]) := by
        simp [MappedFS.addLoop, hg]
      simp [hred]
    | some q =>
      by_cases hq : q = p
      · have hred : MappedFS.addLoop m nm p number (f + 1) = some m := by
          simp [MappedFS.addLoop, hg, hq]
        simp [hred]
      · have hred : MappedFS.addLoop m nm p number (f + 1)
            = MappedFS.addLoop m nm p (number + 1) f := by
          simp [MappedFS.addLoop, hg, hq]
        have hne : number ≠ N := by
          intro hh
          rw [hh, h3] at hg
          cases hg
        rw [hred]
        exact ih (number + 1) ⟨N, by omega, by omega, h3⟩

theorem addLoop_spec (m : MappedFS.FSMap) (nm : ByteStr) (p : FsPath) :
    ∀ (fuel number : Nat) (m2 : MappedFS.FSMap),
      MappedFS.addLoop m nm p number fuel = some m2 →
      ∃ N, number ≤ N ∧
        (∀ k, number ≤ k → k < N →
          ∃ q, assocGet (MappedFS.cand nm k) m = some q ∧ q ≠ p) ∧
        ((assocGet (MappedFS.cand nm N) m = some p ∧ m2 = m) ∨
         (assocGet (MappedFS.cand nm N) m = none ∧
           m2 = m ++ [(MappedFS.cand nm N, p)])) := by
  intro fuel
  induction fuel with
  | zero => intro number m2 h; simp [MappedFS.addLoop] at h
  | succ f ih =>
    intro number m2 h
    cases hg : assocGet (MappedFS.cand nm number) m with
    | none =>
      have hred : MappedFS.addLoop m nm p number (f + 1)
          = some (m ++ [(MappedFS.cand nm number, p)]) := by
        simp [MappedFS.addLoop, hg]
      rw [hred] at h
      exact ⟨number, le_rfl, fun k h1 h2 => absurd h2 (by omega),
        .inr ⟨hg, (Option.some.inj h).symm⟩⟩
    | some q =>
      by_cases hq : q = p
      · have hred : MappedFS.addLoop m nm p number (f + 1) = some m := by
          simp [MappedFS.addLoop, hg, hq]
        rw [hred] at h
        exact ⟨number, le_rfl, fun k h1 h2 => absurd h2 (by omega),
          .inl ⟨hq ▸ hg, (Option.some.inj h).symm⟩⟩
      · have hred : MappedFS.addLoop m nm p number (f + 1)
            = MappedFS.addLoop m nm p (number + 1) f := by
          simp [MappedFS.addLoop, hg, hq]
        rw [hred] at h
        obtain ⟨N, hN1, hN2, hN3⟩ := ih (number + 1) m2 h
        refine ⟨N, by omega, ?_, hN3⟩
        intro k hk1 hk2
        by_cases hkn : k = number
        · subst hkn; exact ⟨q, hg, hq⟩
        · exact hN2 k (by omega) hk2

theorem add_total (m : MappedFS.FSMap) (p : FsPath) (nm : ByteStr)
    (habs : isAbsolute p = true) (hfn : fileName p = some nm) :
    ∃ m2, MappedFS.add m p = some (.ok m2) ∧
      MappedFS.addLoop m nm p 0 (m.length + 1) = some m2 := by
  obtain ⟨N, hN, hvac⟩ := exists_vacant_cand m nm
  have hsome := addLoop_isSome m nm p (m.length + 1) 0 ⟨N, by omega, by omega, hvac⟩
  obtain ⟨m2, hm2⟩ := Option.isSome_iff_exists.1 hsome
  exact ⟨m2, by simp [MappedFS.add, habs, hfn, hm2], hm2⟩

/-- C3 (code bug): the filesystem root `/` is absolute, so `add` passes the
absolute-path check, but its final-component extraction returns nothing and
the asserted-infallible `unwrap` fails (modelled as `none`). An absolute path
with a final component, by contrast, is added successfully. -/
theorem c3_add_root_panics :
    isAbsolute [PathComponent.rootDir] = true ∧
    fileName [PathComponent.rootDir] = none ∧
    MappedFS.add [] [PathComponent.rootDir] = none ∧
    MappedFS.add [] pAFoo = some (.ok [(fooB, pAFoo)]) :=
  ⟨rfl, rfl, rfl, rfl⟩

/-- C7: when `add` accepts an absolute path, the stored display name is the
final component, or the final component with suffix ` (N)`: candidate names
are tried at `N = 0, 1, 2, …`; every candidate below the chosen one is held by
a different real path, and the chosen one is either an identical-path entry
(no-op) or a vacant slot that receives the new entry. Concretely, adding
`/a/b/foo.txt` then `/c/d/foo.txt` yields `foo.txt` and `foo.txt (1)`. -/
theorem c7_collision_disambiguation :
    (∀ (m : MappedFS.FSMap) (p : FsPath) (nm : ByteStr),
      isAbsolute p = true → fileName p = some nm →
      ∃ m2, MappedFS.add m p = some (.ok m2) ∧
        ∃ N, (∀ k, k < N →
            ∃ q, assocGet (MappedFS.cand nm k) m = some q ∧ q ≠ p) ∧
          ((assocGet (MappedFS.cand nm N) m = some p ∧ m2 = m) ∨
           (assocGet (MappedFS.cand nm N) m = none ∧
             m2 = m ++ [(MappedFS.cand nm N, p)]))) ∧
    (MappedFS.add [] pABFoo = some (.ok [(fooTxt, pABFoo)]) ∧
     MappedFS.add [(fooTxt, pABFoo)] pCDFoo =
       some (.ok [(fooTxt, pABFoo), (fooTxt ++ [32, 40, 49, 41], pCDFoo)])) := by
  constructor
  · intro m p nm habs hfn
    obtain ⟨m2, hadd, hloop⟩ := add_total m p nm habs hfn
    obtain ⟨N, -, hchain, hend⟩ := addLoop_spec m nm p (m.length + 1) 0 m2 hloop
    exact ⟨m2, hadd, N, fun k hk => hchain k (Nat.zero_le k) hk, hend⟩
  · exact ⟨rfl, rfl⟩

/-- C7 witness: the concrete collision `/a/b/foo.txt` versus `/c/d/foo.txt`
driven through the general clause. -/
theorem c7_collision_disambiguation_witness :
    isAbsolute pCDFoo = true ∧ fileName pCDFoo = some fooTxt ∧
    (∃ m2, MappedFS.add [(fooTxt, pABFoo)] pCDFoo = some (.ok m2) ∧
      ∃ N, (∀ k, k < N →
          ∃ q, assocGet (MappedFS.cand fooTxt k) [(fooTxt, pABFoo)] = some q ∧
            q ≠ pCDFoo) ∧
        ((assocGet (MappedFS.cand fooTxt N) [(fooTxt, pABFoo)] = some pCDFoo ∧
            m2 = [(fooTxt, pABFoo)]) ∨
         (assocGet (MappedFS.cand fooTxt N) [(fooTxt, pABFoo)] = none ∧
           m2 = [(fooTxt, pABFoo)] ++ [(MappedFS.cand fooTxt N, pCDFoo)]))) :=
  ⟨rfl, rfl,
    c7_collision_disambiguation.1 [(fooTxt, pABFoo)] pCDFoo fooTxt rfl rfl⟩

/-- C8 (code bug): after `add /a/foo`, `add /b/foo`, `remove /a/foo`, a second
`add /b/foo` is not a no-op: the element is still mapped (as `foo (1)`), yet
the call inserts a second entry `foo`, so one real path ends up under two
display names and the entry count grows from one to two. -/
theorem c8_readd_after_remove_duplicates :
    MappedFS.add [] pAFoo = some (.ok [(fooB, pAFoo)]) ∧
    MappedFS.add [(fooB, pAFoo)] pBFoo =
      some (.ok [(fooB, pAFoo), (fooB ++ [32, 40, 49, 41], pBFoo)]) ∧
    MappedFS.remove [(fooB, pAFoo), (fooB ++ [32, 40, 49, 41], pBFoo)] pAFoo =
      [(fooB ++ [32, 40, 49, 41], pBFoo)] ∧
    MappedFS.add [(fooB ++ [32, 40, 49, 41], pBFoo)] pBFoo =
      some (.ok [(fooB ++ [32, 40, 49, 41], pBFoo), (fooB, pBFoo)]) ∧
    assocGet (fooB ++ [32, 40, 49, 41])
      [(fooB ++ [32, 40, 49, 41], pBFoo), (fooB, pBFoo)] = some pBFoo ∧
    assocGet fooB [(fooB ++ [32, 40, 49, 41], pBFoo), (fooB, pBFoo)] = some pBFoo ∧
    ([(fooB ++ [32, 40, 49, 41], pBFoo)] : MappedFS.FSMap).length = 1 ∧
    ([(fooB ++ [32, 40, 49, 41], pBFoo), (fooB, pBFoo)] : MappedFS.FSMap).length = 2 :=
  ⟨rfl, rfl, rfl, rfl, rfl, rfl, rfl, rfl⟩

/-! ### Browser state lemmas -/

theorem updateCursor_cons (k : Nat) (v : Cursor) (rest : List (Nat × Cursor))
    (id : Nat) (c : Cursor) :
    Browser.updateCursor ((k, v) :: rest) id c
      = (if k = id then (id, c) else (k, v)) :: Browser.updateCursor rest id c := by
  simp [Browser.updateCursor]

theorem assocGet_updateCursor_self (cs : List (Nat × Cursor)) (id : Nat)
    (c c0 : Cursor) (h : assocGet id cs = some c0) :
    assocGet id (Browser.updateCursor cs id c) = some c := by
  induction cs with
  | nil => simp [assocGet] at h
  | cons e rest ih =>
    obtain ⟨k, v⟩ := e
    by_cases hk : k = id
    · subst hk
      rw [updateCursor_cons, if_pos rfl, assocGet, if_pos rfl]
    · rw [assocGet, if_neg hk] at h
      rw [updateCursor_cons, if_neg hk, assocGet, if_neg hk]
      exact ih h

theorem assocGet_updateCursor_other (cs : List (Nat × Cursor)) (id : Nat)
    (c : Cursor) (id2 : Nat) (h : id2 ≠ id) :
    assocGet id2 (Browser.updateCursor cs id c) = assocGet id2 cs := by
  induction cs with
  | nil => rfl
  | cons e rest ih =>
    obtain ⟨k, v⟩ := e
    by_cases hk : k = id
    · subst hk
      rw [updateCursor_cons, if_pos rfl, assocGet,
        if_neg (fun hh => h hh.symm), assocGet, if_neg (fun hh => h hh.symm)]
      exact ih
    · rw [updateCursor_cons, if_neg hk]
      by_cases hk2 : k = id2
      · subst hk2; rw [assocGet, if_pos rfl, assocGet, if_pos rfl]
      · rw [assocGet, if_neg hk2, assocGet, if_neg hk2]
        exact ih

theorem assocGet_append_last {κ β : Type} [DecidableEq κ] (l : List (κ × β))
    (k : κ) (v : β) (h : assocGet k l = none) :
    assocGet k (l ++ [(k, v)]) = some v := by
  induction l with
  | nil => simp [assocGet]
  | cons e rest ih =>
    obtain ⟨k2, v2⟩ := e
    by_cases hk : k2 = k
    · rw [assocGet, if_pos hk] at h; cases h
    · rw [assocGet, if_neg hk] at h
      rw [List.cons_append, assocGet, if_neg hk]
      exact ih h

theorem assocGet_append_other {κ β : Type} [DecidableEq κ] (l : List (κ × β))
    (k : κ) (v : β) (k2 : κ) (h : k2 ≠ k) :
    assocGet k2 (l ++ [(k, v)]) = assocGet k2 l := by
  induction l with
  | nil => simp [assocGet, Ne.symm h]
  | cons e rest ih =>
    obtain ⟨k3, v3⟩ := e
    by_cases hk : k3 = k2
    · rw [List.cons_append, assocGet, if_pos hk, assocGet, if_pos hk]
    · rw [List.cons_append, assocGet, if_neg hk, assocGet, if_neg hk]
      exact ih

theorem pickFresh_not_live (live : List Nat) :
    ∀ (stream : List Nat) (id : Nat) (rest : List Nat),
      Browser.pickFresh live stream = some (id, rest) → id ∉ live := by
  intro stream
  induction stream with
  | nil => intro id rest h; simp [Browser.pickFresh] at h
  | cons s tail ih =>
    intro id rest h
    by_cases hmem : s % 65536 ∈ live
    · rw [Browser.pickFresh] at h
      simp only [if_pos hmem] at h
      exact ih id rest h
    · rw [Browser.pickFresh] at h
      simp only [if_neg hmem] at h
      obtain ⟨h1, -⟩ := Prod.mk.injEq .. ▸ Option.some.inj h
      exact h1 ▸ hmem

theorem filter_ne_of_not_mem {κ β : Type} [DecidableEq κ] (l : List (κ × β))
    (k : κ) (h : k ∉ l.map Prod.fst) :
    l.filter (fun e => decide (e.1 ≠ k)) = l := by
  induction l with
  | nil => rfl
  | cons e rest ih =>
    obtain ⟨k2, v2⟩ := e
    simp only [List.map_cons, List.mem_cons] at h
    push_neg at h
    rw [List.filter_cons]
    simp only [decide_eq_true_eq]
    rw [if_pos (fun hh : k2 = k => h.1 hh.symm)]
    rw [ih h.2]

theorem filter_ne_length (cs : List (Nat × Cursor)) (id : Nat) (c : Cursor)
    (hn : (cs.map Prod.fst).Nodup) (h : assocGet id cs = some c) :
    (cs.filter (fun e => decide (e.1 ≠ id))).length + 1 = cs.length := by
  induction cs with
  | nil => simp [assocGet] at h
  | cons e rest ih =>
    obtain ⟨k, v⟩ := e
    simp only [List.map_cons, List.nodup_cons] at hn
    by_cases hk : k = id
    · subst hk
      have hstep : ((k, v) :: rest).filter (fun e => decide (e.1 ≠ k))
          = rest.filter (fun e => decide (e.1 ≠ k)) := by
        simp [List.filter_cons]
      rw [hstep, filter_ne_of_not_mem rest k hn.1]
      simp
    · rw [assocGet, if_neg hk] at h
      have hstep : ((k, v) :: rest).filter (fun e => decide (e.1 ≠ id))
          = (k, v) :: rest.filter (fun e => decide (e.1 ≠ id)) := by
        simp [List.filter_cons, hk]
      rw [hstep]
      have := ih hn.2 h
      simp only [List.length_cons]
      omega

/-- C5: for a live cursor, `move_cursor` to the current path is a complete
no-op (cache included); to a different path it sets the path, clears the
cache, and leaves every other cursor and every other browser field
unchanged. -/
theorem c5_move_semantics (b : Browser) (id : Nat) (c : Cursor) (p : FsPath)
    (h : assocGet id b.cursors = some c) :
    (c.path = p → Browser.move_cursor b id p = (.ok (), b)) ∧
    (c.path ≠ p →
      Browser.move_cursor b id p =
        (.ok (), { b with cursors := Browser.updateCursor b.cursors id ⟨p, none⟩ }) ∧
      assocGet id (Browser.updateCursor b.cursors id ⟨p, none⟩) =
        some (⟨p, none⟩ : Cursor) ∧
      (∀ id2, id2 ≠ id →
        assocGet id2 (Browser.updateCursor b.cursors id ⟨p, none⟩) =
          assocGet id2 b.cursors)) := by
  constructor
  · intro hp
    simp [Browser.move_cursor, h, hp]
  · intro hp
    refine ⟨by simp [Browser.move_cursor, h, hp], ?_, ?_⟩
    · exact assocGet_updateCursor_self b.cursors id ⟨p, none⟩ c h
    · intro id2 h2
      exact assocGet_updateCursor_other b.cursors id ⟨p, none⟩ id2 h2

/-- C5 witness: moving cursor 3 of `bW5` to its own path keeps the cached
listing; the theorem is applied at that concrete browser. -/
theorem c5_move_semantics_witness :
    assocGet 3 bW5.cursors = some (⟨[], some [elemA]⟩ : Cursor) ∧
    (([] : FsPath) = [] → Browser.move_cursor bW5 3 [] = (.ok (), bW5)) :=
  ⟨rfl, (c5_move_semantics bW5 3 ⟨[], some [elemA]⟩ [] rfl).1⟩

/-- C10: whenever `read_cursor` returns an error — an unknown cursor or a
failed listing — the browser state it returns is exactly the input state:
the addressed cursor and all others keep their paths and caches. -/
theorem c10_read_error_preserves_state (b : Browser) (id : Nat)
    (e : CursorError) (b2 : Browser)
    (h : Browser.read_cursor b id = (.error e, b2)) : b2 = b := by
  cases hg : assocGet id b.cursors with
  | none =>
    have hred : Browser.read_cursor b id = (.error .unknownCursor, b) := by
      simp [Browser.read_cursor, hg]
    rw [hred] at h
    injection h with h1 h2
    exact h2.symm
  | some c =>
    cases hfs : b.fs c.path with
    | error u =>
      have hred : Browser.read_cursor b id = (.error (.readError c.path), b) := by
        simp [Browser.read_cursor, hg, hfs]
      rw [hred] at h
      injection h with h1 h2
      exact h2.symm
    | ok L =>
      have hred : Browser.read_cursor b id
          = (.ok (sortElements L),
             { b with cursors :=
                Browser.updateCursor b.cursors id ⟨c.path, some (sortElements L)⟩ }) := by
        simp [Browser.read_cursor, hg, hfs]
      rw [hred] at h
      injection h with h1 h2
      exact Except.noConfusion h1

/-- C10 witness: reading cursor 2 of `bW10` fails with `ReadError` and the
state is unchanged. -/
theorem c10_read_error_preserves_state_witness :
    Browser.read_cursor bW10 2 = (.error (.readError []), bW10) ∧ bW10 = bW10 :=
  ⟨rfl, c10_read_error_preserves_state bW10 2 (.readError []) bW10 rfl⟩

/-- C6: `create_cursor` fails with `CursorLimitReached` precisely at
capacity; below capacity any returned result registers a fresh ID — one not
held by any live cursor — at the root path with no cache, leaving all other
cursors untouched; and destroying a cursor at capacity makes the next create
return a fresh ID again rather than `CursorLimitReached`. -/
theorem c6_create_capacity (b : Browser)
    (hn : (b.cursors.map Prod.fst).Nodup) :
    (b.cursor_limit ≤ b.cursors.length →
      Browser.create_cursor b =
        some (.error (.cursorLimitReached b.cursor_limit), b)) ∧
    (b.cursors.length < b.cursor_limit →
      ∀ res, Browser.create_cursor b = some res →
        ∃ id rest,
          res = (.ok id,
            { b with cursors := b.cursors ++ [(id, ⟨[], none⟩)], rng := rest }) ∧
          assocGet id b.cursors = none ∧
          assocGet id (b.cursors ++ [(id, (⟨[], none⟩ : Cursor))]) =
            some (⟨[], none⟩ : Cursor) ∧
          (∀ id2, id2 ≠ id →
            assocGet id2 (b.cursors ++ [(id, (⟨[], none⟩ : Cursor))]) =
              assocGet id2 b.cursors)) ∧
    (∀ did c, b.cursors.length = b.cursor_limit →
      assocGet did b.cursors = some c →
      ∃ b1, Browser.destroy_cursor b did = (.ok (), b1) ∧
        b1.cursors.length < b.cursor_limit ∧
        ∀ res, Browser.create_cursor b1 = some res →
          ∃ id, res.1 = .ok id ∧ assocGet id b1.cursors = none) := by
  refine ⟨?_, ?_, ?_⟩
  · intro hcap
    simp [Browser.create_cursor, hcap]
  · intro hlt res hres
    rw [Browser.create_cursor, if_neg (by omega)] at hres
    cases hpick : Browser.pickFresh (b.cursors.map Prod.fst) b.rng with
    | none => rw [hpick] at hres; cases hres
    | some pr =>
      obtain ⟨id, rest⟩ := pr
      rw [hpick] at hres
      have hfresh : id ∉ b.cursors.map Prod.fst :=
        pickFresh_not_live (b.cursors.map Prod.fst) b.rng id rest hpick
      have hnone : assocGet id b.cursors = none :=
        (assocGet_eq_none_iff id b.cursors).2 hfresh
      refine ⟨id, rest, (Option.some.inj hres).symm, hnone, ?_, ?_⟩
      · exact assocGet_append_last b.cursors id ⟨[], none⟩ hnone
      · intro id2 h2
        exact assocGet_append_other b.cursors id ⟨[], none⟩ id2 h2
  · intro did c hcap hget
    refine ⟨{ b with cursors := b.cursors.filter (fun e => decide (e.1 ≠ did)) },
      by simp [Browser.destroy_cursor, hget], ?_, ?_⟩
    · have hlen := filter_ne_length b.cursors did c hn hget
      have hpos : 0 < b.cursors.length :=
        List.length_pos.2 (fun hnil => by rw [hnil] at hget; cases hget)
      simp only []
      omega
    · intro res hres
      set b1 : Browser :=
        { b with cursors := b.cursors.filter (fun e => decide (e.1 ≠ did)) } with hb1
      have hlen := filter_ne_length b.cursors did c hn hget
      have hlt : b1.cursors.length < b1.cursor_limit := by
        simp only [hb1]
        omega
      rw [Browser.create_cursor, if_neg (by omega)] at hres
      cases hpick : Browser.pickFresh (b1.cursors.map Prod.fst) b1.rng with
      | none => rw [hpick] at hres; cases hres
      | some pr =>
        obtain ⟨id, rest⟩ := pr
        rw [hpick] at hres
        have hfresh : id ∉ b1.cursors.map Prod.fst :=
          pickFresh_not_live (b1.cursors.map Prod.fst) b1.rng id rest hpick
        refine ⟨id, ?_, (assocGet_eq_none_iff id b1.cursors).2 hfresh⟩
        rw [← Option.some.inj hres]

/-- C6 witness: `bW6` is at capacity, so a create fails with the limit error;
after destroying cursor 1, the next create succeeds with a fresh ID. -/
theorem c6_create_capacity_witness :
    (bW6.cursors.map Prod.fst).Nodup ∧
    bW6.cursor_limit ≤ bW6.cursors.length ∧
    Browser.create_cursor bW6 =
      some (.error (.cursorLimitReached bW6.cursor_limit), bW6) ∧
    (∃ b1, Browser.destroy_cursor bW6 1 = (.ok (), b1) ∧
      b1.cursors.length < bW6.cursor_limit ∧
      ∀ res, Browser.create_cursor b1 = some res →
        ∃ id, res.1 = .ok id ∧ assocGet id b1.cursors = none) :=
  ⟨by decide, by decide,
    (c6_create_capacity bW6 (by decide)).1 (by decide),
    (c6_create_capacity bW6 (by decide)).2.2 1 ⟨[], none⟩ (by decide) rfl⟩

/-! ### The byte-wise name order and the `read_cursor` sort -/

theorem cmpBytes_swap : ∀ (a b : ByteStr), cmpBytes b a = (cmpBytes a b).swap := by
  intro a
  induction a with
  | nil => intro b; cases b <;> rfl
  | cons x as ih =>
    intro b
    cases b with
    | nil => rfl
    | cons y bs =>
      simp only [cmpBytes]
      rcases Nat.lt_trichotomy x y with h | h | h
      · simp [h, Nat.lt_asymm h, Ordering.swap]
      · subst h; simp [Nat.lt_irrefl, ih bs]
      · simp [h, Nat.lt_asymm h, Ordering.swap]

theorem cmpBytes_eq_iff : ∀ (a b : ByteStr), cmpBytes a b = .eq ↔ a = b := by
  intro a
  induction a with
  | nil => intro b; cases b <;> simp [cmpBytes]
  | cons x as ih =>
    intro b
    cases b with
    | nil => simp [cmpBytes]
    | cons y bs =>
      rcases Nat.lt_trichotomy x y with h | h | h
      · simp [cmpBytes, h, Nat.ne_of_lt h]
      · subst h; simp [cmpBytes, Nat.lt_irrefl, ih bs]
      · simp [cmpBytes, h, Nat.lt_asymm h, ne_of_gt h]

theorem cmpBytes_le_trans : ∀ (a b c : ByteStr),
    cmpBytes a b ≠ .gt → cmpBytes b c ≠ .gt → cmpBytes a c ≠ .gt := by
  intro a
  induction a with
  | nil => intro b c _ _; cases c <;> simp [cmpBytes]
  | cons x as ih =>
    intro b c hab hbc
    cases b with
    | nil => simp [cmpBytes] at hab
    | cons y bs =>
      cases c with
      | nil => simp [cmpBytes] at hbc
      | cons z cs =>
        simp only [cmpBytes] at hab hbc ⊢
        have hab2 : x < y ∨ (x = y ∧ cmpBytes as bs ≠ .gt) := by
          by_cases h1 : x < y
          · exact .inl h1
          · by_cases h2 : y < x
            · rw [if_neg h1, if_pos h2] at hab; exact absurd rfl hab
            · rw [if_neg h1, if_neg h2] at hab; exact .inr ⟨by omega, hab⟩
        have hbc2 : y < z ∨ (y = z ∧ cmpBytes bs cs ≠ .gt) := by
          by_cases h1 : y < z
          · exact .inl h1
          · by_cases h2 : z < y
            · rw [if_neg h1, if_pos h2] at hbc; exact absurd rfl hbc
            · rw [if_neg h1, if_neg h2] at hbc; exact .inr ⟨by omega, hbc⟩
        rcases hab2 with h1 | ⟨h1, hab3⟩ <;> rcases hbc2 with h2 | ⟨h2, hbc3⟩
        · rw [if_pos (show x < z by omega)]; decide
        · rw [if_pos (show x < z by omega)]; decide
        · rw [if_pos (show x < z by omega)]; decide
        · rw [if_neg (show ¬ x < z by omega), if_neg (show ¬ z < x by omega)]
          exact ih bs cs hab3 hbc3

instance fsLe_total : IsTotal FSElement fsLe :=
  ⟨by
    intro a b
    by_cases h : cmpBytes a.name b.name = .gt
    · right
      unfold fsLe cmp_fs_elements
      rw [cmpBytes_swap a.name b.name, h]
      decide
    · left; exact h⟩

instance fsLe_transitive : IsTrans FSElement fsLe :=
  ⟨fun a b c hab hbc => cmpBytes_le_trans a.name b.name c.name hab hbc⟩

instance fsLt_antisymm : IsAntisymm FSElement fsLt :=
  ⟨by
    intro a b h1 h2
    exfalso
    unfold fsLt cmp_fs_elements at h1 h2
    rw [cmpBytes_swap a.name b.name, h1] at h2
    exact absurd h2 (by decide)⟩

theorem sortElements_sorted (l : List FSElement) :
    List.Sorted fsLe (sortElements l) :=
  List.sorted_insertionSort fsLe l

theorem sortElements_perm (l : List FSElement) : (sortElements l).Perm l :=
  List.perm_insertionSort fsLe l

theorem sorted_strict_of_nodup_names (M : List FSElement)
    (hnd : (M.map FSElement.name).Nodup) (hs : List.Sorted fsLe M) :
    List.Sorted fsLt M := by
  have hnames : M.Pairwise (fun a b => a.name ≠ b.name) :=
    List.pairwise_map.1 hnd
  refine (hs.and hnames).imp ?_
  intro a b hab
  obtain ⟨hle, hne⟩ := hab
  unfold fsLe cmp_fs_elements at hle
  unfold fsLt cmp_fs_elements
  cases ho : cmpBytes a.name b.name with
  | lt => rfl
  | eq => exact absurd ((cmpBytes_eq_iff a.name b.name).1 ho) hne
  | gt => exact absurd ho hle

theorem sorted_perm_nodup_unique (L L2 : List FSElement)
    (hnd : (L.map FSElement.name).Nodup) (hperm : L2.Perm L)
    (hs : List.Sorted fsLe L2) : L2 = sortElements L := by
  have hperm2 : L2.Perm (sortElements L) := hperm.trans (sortElements_perm L).symm
  have hnd2 : (L2.map FSElement.name).Nodup :=
    (hperm.map FSElement.name).symm.nodup hnd
  have hnds : ((sortElements L).map FSElement.name).Nodup :=
    ((sortElements_perm L).map FSElement.name).symm.nodup hnd
  exact List.eq_of_perm_of_sorted hperm2
    (sorted_strict_of_nodup_names L2 hnd2 hs)
    (sorted_strict_of_nodup_names (sortElements L) hnds (sortElements_sorted L))

/-- C4: on a live cursor whose path lists successfully, `read_cursor` returns
the listing sorted by name under the raw-byte lexicographic order, stores the
same sorted list as the new cache, and leaves the rest of the browser
unchanged; the output is a sorted permutation of the listing, and when the
listing has pairwise-distinct names (true of every real directory listing and
of the root table) that sorted permutation is unique — so the order is the
one a stable sort would produce. -/
theorem c4_read_sorted (b : Browser) (id : Nat) (c : Cursor)
    (L : List FSElement) (hc : assocGet id b.cursors = some c)
    (hl : b.fs c.path = .ok L) :
    Browser.read_cursor b id =
      (.ok (sortElements L),
       { b with cursors :=
          Browser.updateCursor b.cursors id ⟨c.path, some (sortElements L)⟩ }) ∧
    List.Sorted fsLe (sortElements L) ∧
    (sortElements L).Perm L ∧
    ((L.map FSElement.name).Nodup →
      ∀ L2, L2.Perm L → List.Sorted fsLe L2 → L2 = sortElements L) := by
  refine ⟨by simp [Browser.read_cursor, hc, hl], sortElements_sorted L,
    sortElements_perm L, ?_⟩
  intro hnd L2 hperm hs
  exact sorted_perm_nodup_unique L L2 hnd hperm hs

/-- C4 witness: reading cursor 7 of `bW4`, whose filesystem lists `b` then
`a`, returns and caches the listing sorted as `a` then `b`. -/
theorem c4_read_sorted_witness :
    assocGet 7 bW4.cursors = some (⟨[], none⟩ : Cursor) ∧
    bW4.fs [] = .ok [elemB, elemA] ∧
    (Browser.read_cursor bW4 7 =
      (.ok (sortElements [elemB, elemA]),
       { bW4 with cursors :=
          Browser.updateCursor bW4.cursors 7 ⟨[], some (sortElements [elemB, elemA])⟩ }) ∧
     List.Sorted fsLe (sortElements [elemB, elemA]) ∧
     (sortElements [elemB, elemA]).Perm [elemB, elemA] ∧
     (([elemB, elemA].map FSElement.name).Nodup →
       ∀ L2, L2.Perm [elemB, elemA] → List.Sorted fsLe L2 →
         L2 = sortElements [elemB, elemA])) ∧
    sortElements [elemB, elemA] = [elemA, elemB] :=
  ⟨rfl, rfl, c4_read_sorted bW4 7 ⟨[], none⟩ [elemB, elemA] rfl rfl, by decide⟩

/-! ### Framing and message sizes -/

theorem frameMessage_isSome (payload : List (Fin 256))
    (h : payload.length ≤ 65535) :
    (Wire.frameMessage payload).isSome = true := by
  rw [Wire.frameMessage, Wire.frameLen, dif_pos (by omega)]
  rfl

theorem frameMessage_none (payload : List (Fin 256))
    (h : 65535 < payload.length) : Wire.frameMessage payload = none := by
  rw [Wire.frameMessage, Wire.frameLen, dif_neg (by omega)]
  rfl

/-- C2 counterexample: no injective serialization of `Response` values keeps
every serialized message within 65535 bytes — a `Read` response can carry an
arbitrarily long listing, and there are only finitely many byte strings of
bounded length. Hence the claim that every serialized message fits the 2-byte
length prefix is false for the message encoding, whichever it is. -/
theorem c2_counterexample :
    ¬ ∃ enc : Wire.Response → List (Fin 256),
        Function.Injective enc ∧ ∀ r, (enc r).length ≤ 65535 := by
  rintro ⟨enc, hinj, hle⟩
  have hfin : {l : List (Fin 256) | l.length ≤ 65535}.Finite :=
    List.finite_length_le (Fin 256) 65535
  haveI := hfin.to_subtype
  set f : Nat → Wire.Response :=
    fun n => .read (.ok (List.replicate n elemA)) with hf
  have hfinj : Function.Injective f := by
    intro m n hmn
    simp only [hf, Wire.Response.read.injEq, Except.ok.injEq] at hmn
    have := congrArg List.length hmn
    simpa using this
  set g : Nat → {l : List (Fin 256) | l.length ≤ 65535} :=
    fun n => ⟨enc (f n), hle (f n)⟩ with hg
  obtain ⟨m, n, hne, heq⟩ := Finite.exists_ne_map_eq_of_infinite g
  apply hne
  apply hfinj
  apply hinj
  simpa [hg] using heq

/-- C2 amended: the 2-byte prefix does cap every *framed* message at 65535
bytes, but nothing bounds the serialized size of a `Read` response; under any
encoding that spends at least one byte per listing element, some response
cannot be framed and the length conversion in `handle_socket` fails. -/
theorem c2_amended (enc : Wire.Response → List (Fin 256))
    (hgrow : ∀ L : List FSElement, L.length ≤ (enc (.read (.ok L))).length) :
    (∀ payload : List (Fin 256), payload.length ≤ 65535 →
      (Wire.frameMessage payload).isSome = true) ∧
    (∃ L : List FSElement, Wire.frameMessage (enc (.read (.ok L))) = none) := by
  refine ⟨fun payload h => frameMessage_isSome payload h, ?_⟩
  refine ⟨List.replicate 65536 elemA, ?_⟩
  apply frameMessage_none
  have := hgrow (List.replicate 65536 elemA)
  simp only [List.length_replicate] at this
  omega

/-- C2 witness: the one-byte-per-element encoding `encW` satisfies the growth
hypothesis, and the amended statement holds for it. -/
theorem c2_amended_witness :
    (∀ L : List FSElement, L.length ≤ (encW (.read (.ok L))).length) ∧
    ((∀ payload : List (Fin 256), payload.length ≤ 65535 →
      (Wire.frameMessage payload).isSome = true) ∧
    (∃ L : List FSElement, Wire.frameMessage (encW (.read (.ok L))) = none)) :=
  ⟨fun L => by simp [encW], c2_amended encW (fun L => by simp [encW])⟩

end SFT
